import Mathlib

/-!
Verification of the iterator-protocol example (`Sentence` / `SentenceIterator`)
and the metaclass example (`Field` / `DesNameMeta`) of this repository.

The Python code is shallowly embedded: strings are Lean `String`s (lists of
characters), the mutable `_index` field of an iterator becomes explicit state
passing (`next` returns the yielded value together with the updated iterator),
and the `StopIteration` signal raised by `__next__` is the `none` case of an
`Option` result, distinguished from every yielded token.
-/

/-- A character matched by the regex class `\w` (ASCII semantics of
`[a-zA-Z0-9_]`): letters, digits and the underscore. -/
def isWordChar (c : Char) : Bool := c.isAlphanum || c == '_'

/-- The greedy match of `\w+` at the current position: the longest prefix of
word characters, together with the remaining characters. -/
def takeRun : List Char → List Char × List Char
  | [] => ([], [])
  | c :: cs =>
    if isWordChar c then
      let p := takeRun cs
      (c :: p.1, p.2)
    else ([], c :: cs)

theorem takeRun_snd_length (l : List Char) : (takeRun l).2.length ≤ l.length := by
  induction l with
  | nil => simp [takeRun]
  | cons c cs ih =>
    simp only [takeRun]
    split
    · exact Nat.le_succ_of_le ih
    · exact Nat.le_refl _

/-- Embedding of `re.findall(r'\w+', ·)`: scan left to right; at a word
character take the greedy (maximal) match of `\w+` and continue after it, at
any other character move on by one.  Matches are returned in scan order. -/
def findallW (l : List Char) : List (List Char) :=
  match l with
  | [] => []
  | c :: cs =>
    if isWordChar c then
      (c :: (takeRun cs).1) :: findallW (takeRun cs).2
    else
      findallW cs
termination_by l.length
decreasing_by
  · exact Nat.lt_succ_of_le (takeRun_snd_length cs)
  · exact Nat.lt_succ_of_le (Nat.le_refl _)

/-- Specification-side tokenizer, written from the spec's words: a token is a
maximal contiguous run of word characters, and the runs are listed in the
order they occur.  The scan keeps the (reversed) run accumulated so far;
a non-word character (or the end of the string) closes the current run. -/
def specRunsAux : List Char → List Char → List (List Char)
  | acc, [] => if acc.isEmpty then [] else [acc.reverse]
  | acc, c :: cs =>
    if isWordChar c then
      specRunsAux (c :: acc) cs
    else if acc.isEmpty then
      specRunsAux [] cs
    else
      acc.reverse :: specRunsAux [] cs

/-- The maximal contiguous runs of word characters of a string, in order. -/
def specRuns (l : List Char) : List (List Char) := specRunsAux [] l

theorem specRunsAux_cons (acc : List Char) (l : List Char) (h : acc ≠ []) :
    specRunsAux acc l = (acc.reverse ++ (takeRun l).1) :: specRunsAux [] (takeRun l).2 := by
  induction l generalizing acc with
  | nil =>
    simp [specRunsAux, takeRun, h]
  | cons c cs ih =>
    by_cases hc : isWordChar c
    · rw [specRunsAux, if_pos hc, ih (c :: acc) (by simp)]
      simp [takeRun, hc]
    · rw [specRunsAux, if_neg hc, if_neg (by simpa using h)]
      simp [takeRun, hc, specRunsAux]

/-- The scanning tokenizer embedded from `re.findall(r'\w+', ·)` produces
exactly the maximal word-character runs, in order. -/
theorem findallW_eq_specRuns (l : List Char) : findallW l = specRuns l := by
  induction l using findallW.induct with
  | case1 => simp [findallW, specRuns, specRunsAux]
  | case2 c cs hc ih =>
    rw [findallW, if_pos hc]
    rw [specRuns, specRunsAux, if_pos hc, specRunsAux_cons [c] cs (by simp)]
    rw [ih]
    rfl
  | case3 c cs hc ih =>
    rw [findallW, if_neg hc, ih]
    simp [specRuns, specRunsAux, hc]

/-- Embedding of the `Sentence` class: `__init__` stores the source string and
the token list `re.findall(r'\w+', sentence)`. -/
structure Sentence where
  sentence : String
  words : List String

/-- Embedding of `Sentence.__init__`. -/
def Sentence.init (s : String) : Sentence :=
  { sentence := s, words := (findallW s.toList).map List.asString }

/-- Embedding of the `SentenceIterator` class: the word list and the mutable
position counter `self._index`. -/
structure SentenceIterator where
  words : List String
  _index : Nat
deriving DecidableEq

/-- Embedding of `Sentence.__iter__`: each call builds a brand-new
`SentenceIterator(self.words)`, whose position starts at zero. -/
def Sentence.iter (s : Sentence) : SentenceIterator :=
  { words := s.words, _index := 0 }

/-- Embedding of `SentenceIterator.__next__`.  The `try: word =
self.words[self._index]` is the in-bounds lookup `words[_index]?`; on
`IndexError` (`none`) the method raises `StopIteration` without touching
`_index`, otherwise it increments `_index` and returns the word.  The result's
first component is `some word` for a yielded token and `none` for the
`StopIteration` signal; the second component is the iterator's state after the
call. -/
def SentenceIterator.next (it : SentenceIterator) : Option String × SentenceIterator :=
  match it.words[it._index]? with
  | none => (none, it)
  | some w => (some w, { it with _index := it._index + 1 })

/-- Applying `__next__` a given number of times, keeping only the final
iterator state. -/
def SentenceIterator.advanceN : Nat → SentenceIterator → SentenceIterator
  | 0, it => it
  | n + 1, it => SentenceIterator.advanceN n it.next.2

/-- Fuel-bounded traversal loop: keep calling `__next__`, collecting yielded
tokens, until `StopIteration` (or until the fuel runs out). -/
def SentenceIterator.runFuel : Nat → SentenceIterator → List String
  | 0, _ => []
  | n + 1, it =>
    match it.next with
    | (none, _) => []
    | (some w, it') => w :: SentenceIterator.runFuel n it'

/-- One full traversal of a `Sentence`, as the `for word in sentence:` loop
does: obtain a fresh iterator with `iter` and drain it.  The fuel
`words.length + 1` covers every `__next__` call the loop makes, the final
`StopIteration` included. -/
def Sentence.traverse (s : Sentence) : List String :=
  SentenceIterator.runFuel (s.words.length + 1) s.iter

theorem SentenceIterator.next_of_lt (ws : List String) (i : Nat) (h : i < ws.length) :
    (SentenceIterator.mk ws i).next = (some (ws.get ⟨i, h⟩), SentenceIterator.mk ws (i + 1)) := by
  simp [SentenceIterator.next, List.getElem?_eq_getElem h]

theorem SentenceIterator.next_of_ge (ws : List String) (i : Nat) (h : ws.length ≤ i) :
    (SentenceIterator.mk ws i).next = (none, SentenceIterator.mk ws i) := by
  simp [SentenceIterator.next, List.getElem?_eq_none h]

theorem SentenceIterator.runFuel_eq_drop (fuel : Nat) (ws : List String) (i : Nat)
    (hfuel : ws.length - i ≤ fuel) :
    SentenceIterator.runFuel fuel (SentenceIterator.mk ws i) = ws.drop i := by
  induction fuel generalizing i with
  | zero =>
    have : ws.length ≤ i := Nat.le_of_sub_eq_zero (Nat.le_zero.mp hfuel)
    simp [SentenceIterator.runFuel, List.drop_eq_nil_of_le this]
  | succ n ih =>
    by_cases h : i < ws.length
    · rw [SentenceIterator.runFuel, SentenceIterator.next_of_lt ws i h]
      show ws.get ⟨i, h⟩ :: SentenceIterator.runFuel n (SentenceIterator.mk ws (i + 1))
          = ws.drop i
      rw [ih (i + 1) (by omega), List.drop_eq_getElem_cons h]
      rfl
    · push_neg at h
      rw [SentenceIterator.runFuel, SentenceIterator.next_of_ge ws i h]
      simp [List.drop_eq_nil_of_le h]

/-- A full traversal yields exactly the stored word list. -/
theorem Sentence.traverse_eq_words (s : Sentence) : s.traverse = s.words := by
  have := SentenceIterator.runFuel_eq_drop (s.words.length + 1) s.words 0 (by omega)
  simpa [Sentence.traverse, Sentence.iter] using this

theorem SentenceIterator.advanceN_mk (n : Nat) (ws : List String) (i : Nat)
    (hi : i ≤ ws.length) :
    SentenceIterator.advanceN n (SentenceIterator.mk ws i)
      = SentenceIterator.mk ws (min (i + n) ws.length) := by
  induction n generalizing i with
  | zero => simp [SentenceIterator.advanceN, Nat.min_eq_left hi]
  | succ n ih =>
    rw [SentenceIterator.advanceN]
    by_cases h : i < ws.length
    · rw [SentenceIterator.next_of_lt ws i h]
      show SentenceIterator.advanceN n (SentenceIterator.mk ws (i + 1)) = _
      rw [ih (i + 1) h]
      congr 1
      omega
    · push_neg at h
      rw [SentenceIterator.next_of_ge ws i h]
      show SentenceIterator.advanceN n (SentenceIterator.mk ws i) = _
      rw [ih i hi]
      congr 1
      omega

theorem SentenceIterator.advanceN_exhausted (n : Nat) (it : SentenceIterator)
    (h : it.words.length ≤ it._index) :
    SentenceIterator.advanceN n it = it := by
  induction n with
  | zero => rfl
  | succ n ih =>
    rw [SentenceIterator.advanceN]
    have : it.next = (none, it) := by
      cases it with
      | mk ws i => exact SentenceIterator.next_of_ge ws i h
    rw [this]
    exact ih

/-- The state of a suspended generator produced by a generator function or a
generator expression: the values it still has to yield, in order. -/
structure GenCursor where
  remaining : List String
deriving DecidableEq

/-- Calling `next` on a generator: resume it; it either yields its next value
or finishes, which the interpreter turns into `StopIteration`. -/
def GenCursor.next : GenCursor → Option String × GenCursor
  | ⟨[]⟩ => (none, ⟨[]⟩)
  | ⟨w :: ws⟩ => (some w, ⟨ws⟩)

/-- Applying `next` a given number of times to a generator, keeping only the
final state. -/
def GenCursor.advanceN : Nat → GenCursor → GenCursor
  | 0, g => g
  | n + 1, g => GenCursor.advanceN n g.next.2

/-- Fuel-bounded traversal loop over a generator, mirroring
`SentenceIterator.runFuel`. -/
def GenCursor.runFuel : Nat → GenCursor → List String
  | 0, _ => []
  | n + 1, g =>
    match g.next with
    | (none, _) => []
    | (some w, g') => w :: GenCursor.runFuel n g'

theorem GenCursor.runFuel_eq (fuel : Nat) (ws : List String) (h : ws.length ≤ fuel) :
    GenCursor.runFuel fuel (GenCursor.mk ws) = ws := by
  induction ws generalizing fuel with
  | nil =>
    cases fuel with
    | zero => rfl
    | succ n => rfl
  | cons w ws ih =>
    cases fuel with
    | zero => exact absurd h (by simp)
    | succ n =>
      show w :: GenCursor.runFuel n (GenCursor.mk ws) = w :: ws
      rw [ih n (by simpa using h)]

theorem GenCursor.advanceN_drop (n : Nat) (ws : List String) :
    GenCursor.advanceN n (GenCursor.mk ws) = GenCursor.mk (ws.drop n) := by
  induction n generalizing ws with
  | zero => simp [GenCursor.advanceN]
  | succ n ih =>
    cases ws with
    | nil =>
      show GenCursor.advanceN n (GenCursor.mk []) = _
      rw [ih]
      simp
    | cons w ws =>
      show GenCursor.advanceN n (GenCursor.mk ws) = _
      rw [ih]
      simp

/-- Embedding of the second `Sentence` version, whose `__iter__` is the
generator function `for word in self.words: yield word`. -/
structure SentenceGen where
  sentence : String
  words : List String

/-- Embedding of the generator version's `__init__` (identical to the first
version's). -/
def SentenceGen.init (s : String) : SentenceGen :=
  { sentence := s, words := (findallW s.toList).map List.asString }

/-- Embedding of the generator-function `__iter__`: each call creates a fresh
suspended generator that has the whole word list still to yield. -/
def SentenceGen.iter (s : SentenceGen) : GenCursor := GenCursor.mk s.words

/-- One full traversal of the generator version. -/
def SentenceGen.traverse (s : SentenceGen) : List String :=
  GenCursor.runFuel (s.words.length + 1) s.iter

/-- Embedding of the third `Sentence` version, whose `__init__` only stores the
compiled pattern and the source string (no precomputed word list). -/
structure SentenceGenexp where
  sentence : String

/-- Embedding of the genexp version's `__init__`. -/
def SentenceGenexp.init (s : String) : SentenceGenexp := { sentence := s }

/-- Embedding of the generator-expression `__iter__`:
`(match.group() for match in self.re_word.finditer(self.sentence))`.
`finditer` yields the same non-overlapping maximal matches of `\w+` as
`findall`, lazily; a fresh generator has them all still to yield. -/
def SentenceGenexp.iter (s : SentenceGenexp) : GenCursor :=
  GenCursor.mk ((findallW s.sentence.toList).map List.asString)

/-- One full traversal of the genexp version. -/
def SentenceGenexp.traverse (s : SentenceGenexp) : List String :=
  GenCursor.runFuel (((findallW s.sentence.toList).map List.asString).length + 1) s.iter

/-- A pool of outstanding cursors over the same sentence.  Advancing the
cursor at index `j` is the Python call `next(cursors[j])`, which mutates only
that iterator object (`__next__` assigns only `self._index`). -/
def advanceAt (cs : List SentenceIterator) (j : Nat) : List SentenceIterator :=
  match cs[j]? with
  | none => cs
  | some it => cs.set j it.next.2

/-- A whole interleaving of advance calls against a pool of cursors, given as
the list of cursor indices in call order. -/
def advanceSeq (ops : List Nat) (cs : List SentenceIterator) : List SentenceIterator :=
  ops.foldl advanceAt cs

theorem advanceAt_get_ne (cs : List SentenceIterator) (j k : Nat) (h : j ≠ k) :
    (advanceAt cs j)[k]? = cs[k]? := by
  unfold advanceAt
  cases hj : cs[j]? with
  | none => rfl
  | some it => simp [List.getElem?_set_ne h]

theorem advanceSeq_get_not_mem (ops : List Nat) (cs : List SentenceIterator) (k : Nat)
    (h : ∀ j ∈ ops, j ≠ k) :
    (advanceSeq ops cs)[k]? = cs[k]? := by
  induction ops generalizing cs with
  | nil => rfl
  | cons j ops ih =>
    show (advanceSeq ops (advanceAt cs j))[k]? = cs[k]?
    rw [ih (advanceAt cs j) (fun x hx => h x (List.mem_cons_of_mem j hx))]
    exact advanceAt_get_ne cs j k (h j (List.mem_cons_self j ops))

namespace ClassMeta

/-- Embedding of the `Field` descriptor class: its only attribute is
`__name__`, unset (`none`) until the metaclass assigns it. -/
structure Field where
  __name__ : Option String
deriving DecidableEq

/-- A value of the pending class-attribute mapping: either a `Field`
descriptor, or any other attribute (methods and the like), which the metaclass
leaves untouched.  The opaque tag stands for the attribute's value. -/
inductive AttrVal where
  | fieldVal (f : Field)
  | otherVal (tag : Nat)
deriving DecidableEq

/-- Embedding of `DesNameMeta.__init__`: walk the pending attribute mapping
`dic` in declaration order; for exactly the entries whose value is a `Field`,
set that `Field`'s `__name__` to the attribute's name and append the name to
`field_names`; finally store `cls._field_names = field_names`.  Returns the
updated mapping together with `_field_names`. -/
def DesNameMeta.classInit : List (String × AttrVal) → List (String × AttrVal) × List String
  | [] => ([], [])
  | (nm, AttrVal.fieldVal f) :: rest =>
    let p := DesNameMeta.classInit rest
    ((nm, AttrVal.fieldVal { f with __name__ := some nm }) :: p.1, nm :: p.2)
  | (nm, AttrVal.otherVal t) :: rest =>
    let p := DesNameMeta.classInit rest
    ((nm, AttrVal.otherVal t) :: p.1, p.2)

/-- Specification-side description of `_field_names`: the names of the
`Field`-valued attributes of the mapping, in declaration order. -/
def fieldNamesSpec (dic : List (String × AttrVal)) : List String :=
  dic.filterMap (fun p =>
    match p.2 with
    | AttrVal.fieldVal _ => some p.1
    | AttrVal.otherVal _ => none)

/-- The instance backing store `_value_dict`: lookup of a key, embedding
`dict.get` (which yields `None`, here `none`, for a missing key). -/
def dictGet (store : List (String × String)) (k : String) : Option String :=
  match store with
  | [] => none
  | kv :: rest => if kv.1 == k then some kv.2 else dictGet rest k

/-- The instance backing store `_value_dict`: key assignment, embedding
`dict[k] = v` (replace the key's value, or add the key). -/
def dictSet (store : List (String × String)) (k v : String) : List (String × String) :=
  match store with
  | [] => [(k, v)]
  | kv :: rest => if kv.1 == k then (k, v) :: rest else kv :: dictSet rest k v

/-- Embedding of `Field.__get__` for a non-`None` instance: read
`instance._value_dict.get(self.__name__)`.  The outer `none` is the
`AttributeError` raised when `__name__` was never assigned; the inner option
is the `dict.get` result. -/
def Field.get (f : Field) (store : List (String × String)) : Option (Option String) :=
  match f.__name__ with
  | none => none
  | some nm => some (dictGet store nm)

/-- Embedding of `Field.__set__`: `instance._value_dict[self.__name__] = val`.
`none` is again the `AttributeError` for an unset `__name__`; otherwise the
updated backing store is returned. -/
def Field.set (f : Field) (store : List (String × String)) (v : String) :
    Option (List (String × String)) :=
  match f.__name__ with
  | none => none
  | some nm => some (dictSet store nm v)

theorem dictGet_dictSet_self (store : List (String × String)) (k v : String) :
    dictGet (dictSet store k v) k = some v := by
  induction store with
  | nil => simp [dictGet, dictSet]
  | cons kv rest ih =>
    simp only [dictSet]
    split_ifs with h
    · simp [dictGet]
    · simp only [dictGet]
      rw [if_neg h, ih]

theorem dictGet_dictSet_ne (store : List (String × String)) (k k' v : String)
    (h : k ≠ k') :
    dictGet (dictSet store k v) k' = dictGet store k' := by
  induction store with
  | nil => simp [dictGet, dictSet, h]
  | cons kv rest ih =>
    simp only [dictSet]
    split_ifs with hk
    · have hkk : kv.1 = k := by simpa using hk
      simp only [dictGet]
      rw [if_neg (by simp [h]), if_neg (by simp [hkk, h])]
    · simp only [dictGet]
      by_cases hk' : (kv.1 == k') = true
      · rw [if_pos hk', if_pos hk']
      · rw [if_neg hk', if_neg hk', ih]

end ClassMeta

/-- A string with no word character at all has no `\w+` match. -/
theorem findallW_nil_of_no_word (l : List Char) (h : ∀ c ∈ l, isWordChar c = false) :
    findallW l = [] := by
  induction l using findallW.induct with
  | case1 => simp [findallW]
  | case2 c cs hc ih => exact absurd (h c (List.mem_cons_self c cs)) (by simp [hc])
  | case3 c cs hc ih =>
    rw [findallW, if_neg hc]
    exact ih (fun x hx => h x (List.mem_cons_of_mem c hx))

/-- A `__next__` call never changes the iterator's word list, only `_index`. -/
theorem SentenceIterator.next_preserves_words (it : SentenceIterator) :
    it.next.2.words = it.words := by
  unfold SentenceIterator.next
  split <;> rfl

/-- Any number of `__next__` calls never changes the iterator's word list. -/
theorem SentenceIterator.advanceN_preserves_words (n : Nat) (it : SentenceIterator) :
    (SentenceIterator.advanceN n it).words = it.words := by
  induction n generalizing it with
  | zero => rfl
  | succ n ih =>
    rw [SentenceIterator.advanceN, ih it.next.2, SentenceIterator.next_preserves_words]

/-- The outcome of the k-th advance on a fresh hand-built cursor: the k-th
word when there is one, the end-of-sequence signal otherwise. -/
theorem SentenceIterator.output_at_index (ws : List String) (k : Nat) :
    (SentenceIterator.advanceN k (SentenceIterator.mk ws 0)).next.1 = ws[k]? := by
  rw [SentenceIterator.advanceN_mk k ws 0 (Nat.zero_le _)]
  by_cases h : k < ws.length
  · rw [Nat.zero_add, Nat.min_eq_left (Nat.le_of_lt h)]
    rw [SentenceIterator.next_of_lt ws k h]
    rw [List.getElem?_eq_getElem h]
    rfl
  · push_neg at h
    rw [Nat.zero_add, Nat.min_eq_right h]
    rw [SentenceIterator.next_of_ge ws ws.length (Nat.le_refl _)]
    rw [List.getElem?_eq_none h]

/-- The outcome of the k-th advance on a fresh generator: the k-th word when
there is one, the end-of-sequence signal otherwise. -/
theorem GenCursor.gen_output_at (ws : List String) (k : Nat) :
    (GenCursor.advanceN k (GenCursor.mk ws)).next.1 = ws[k]? := by
  rw [GenCursor.advanceN_drop]
  cases hd : ws.drop k with
  | nil =>
    have hlen : ws.length ≤ k := by
      have := List.drop_eq_nil_iff.mp hd
      omega
    rw [List.getElem?_eq_none hlen]
    rfl
  | cons w rest =>
    have hh : (ws.drop k).head? = some w := by rw [hd]; rfl
    rw [List.head?_drop] at hh
    rw [hh]
    rfl

/-- A full traversal of the generator version yields the stored word list. -/
theorem SentenceGen.traverse_gen_eq_words (s : SentenceGen) : s.traverse = s.words :=
  GenCursor.runFuel_eq (s.words.length + 1) s.words (Nat.le_succ _)

/-- A full traversal of the genexp version yields the `\w+` matches of the
source string. -/
theorem SentenceGenexp.traverse_genexp_eq (s : SentenceGenexp) :
    s.traverse = (findallW s.sentence.toList).map List.asString :=
  GenCursor.runFuel_eq _ _ (Nat.le_succ _)

/-- Modelled from the spec: `SentenceIterator` inherits `abc.Iterator`, whose
`__iter__` is standard-library code not among this repository's files; it
returns the iterator object itself, as the notebook's own text documents
(an iterator also implements `__iter__`, which returns `self`). -/
def SentenceIterator.iter (it : SentenceIterator) : SentenceIterator := it

namespace ClassMeta

/-- The hook stores `_field_names = fieldNamesSpec dic`: the `Field`-valued
attribute names in declaration order. -/
theorem classInit_snd (dic : List (String × AttrVal)) :
    (DesNameMeta.classInit dic).2 = fieldNamesSpec dic := by
  induction dic with
  | nil => rfl
  | cons p rest ih =>
    cases p with
    | mk nm v =>
      cases v with
      | fieldVal f =>
        show nm :: (DesNameMeta.classInit rest).2 = _
        rw [ih]
        rfl
      | otherVal t =>
        show (DesNameMeta.classInit rest).2 = _
        rw [ih]
        rfl

/-- Every `Field`-valued entry of the processed mapping carries its own
attribute name in `__name__`. -/
theorem classInit_fst_field_named (dic : List (String × AttrVal)) (nm : String) (f : Field)
    (hmem : (nm, AttrVal.fieldVal f) ∈ (DesNameMeta.classInit dic).1) :
    f.__name__ = some nm := by
  induction dic with
  | nil => simp [DesNameMeta.classInit] at hmem
  | cons p rest ih =>
    cases p with
    | mk nm' v =>
      cases v with
      | fieldVal f' =>
        have hstep : (DesNameMeta.classInit ((nm', AttrVal.fieldVal f') :: rest)).1
            = (nm', AttrVal.fieldVal { f' with __name__ := some nm' })
                :: (DesNameMeta.classInit rest).1 := rfl
        rw [hstep] at hmem
        rcases List.mem_cons.mp hmem with h | h
        · injection h with h1 h2
          injection h2 with h3
          rw [h1, h3]
        · exact ih h
      | otherVal t =>
        have hstep : (DesNameMeta.classInit ((nm', AttrVal.otherVal t) :: rest)).1
            = (nm', AttrVal.otherVal t) :: (DesNameMeta.classInit rest).1 := rfl
        rw [hstep] at hmem
        rcases List.mem_cons.mp hmem with h | h
        · injection h with h1 h2
          exact absurd h2 (by simp)
        · exact ih h

end ClassMeta

/-- C1: For every input string `S`, one full traversal of the word sequence
built from `S` (`Sentence.init S`, iterated to exhaustion) produces exactly as
many tokens as there are maximal contiguous runs of word characters in `S`,
and the tokens are precisely those runs, in the order the runs occur in `S`. -/
theorem sentence_traversal_tokens_are_maximal_runs (S : String) :
    (Sentence.init S).traverse.length = (specRuns S.toList).length ∧
    (Sentence.init S).traverse = (specRuns S.toList).map List.asString := by
  have h2 : (Sentence.init S).traverse = (specRuns S.toList).map List.asString := by
    rw [Sentence.traverse_eq_words]
    show (findallW S.toList).map List.asString = _
    rw [findallW_eq_specRuns]
  exact ⟨by rw [h2, List.length_map], h2⟩

/-- C2: Every traversal request against a word sequence returns a cursor whose
position starts at zero; in a pool of outstanding cursors over the same
sequence, an arbitrary interleaving of advance calls that never touches cursor
`k` leaves cursor `k`'s state, and hence its next result, unchanged; and any
two cursors obtained fresh from the same sequence, run to exhaustion with the
same fuel, yield identical token sequences. -/
theorem sentence_cursors_independent (s : Sentence) (cs : List SentenceIterator)
    (ops : List Nat) (k : Nat) (hk : ∀ j ∈ ops, j ≠ k) :
    (s.iter)._index = 0 ∧
    (advanceSeq ops cs)[k]? = cs[k]? ∧
    ((advanceSeq ops cs)[k]?).map SentenceIterator.next = (cs[k]?).map SentenceIterator.next ∧
    ∀ c1 c2 : SentenceIterator, c1 = s.iter → c2 = s.iter →
      ∀ fuel : Nat, SentenceIterator.runFuel fuel c1 = SentenceIterator.runFuel fuel c2 := by
  refine ⟨rfl, advanceSeq_get_not_mem ops cs k hk, ?_, ?_⟩
  · rw [advanceSeq_get_not_mem ops cs k hk]
  · intro c1 c2 h1 h2 fuel
    rw [h1, h2]

/-- Witness for C2: a pool of two fresh cursors over "ab cd"; three advances
of cursor 0 leave cursor 1 exactly as handed out. -/
theorem sentence_cursors_independent_witness :
    (advanceSeq [0, 0, 0]
        [(Sentence.init "ab cd").iter, (Sentence.init "ab cd").iter])[1]?
      = some ((Sentence.init "ab cd").iter) :=
  ((sentence_cursors_independent (Sentence.init "ab cd")
      [(Sentence.init "ab cd").iter, (Sentence.init "ab cd").iter]
      [0, 0, 0] 1 (by decide)).2.1).trans rfl

/-- C3: The advance operation follows the cursor state machine exactly: at
position `i < n` (with `n` the token count) it returns token `i` and moves the
position to `i + 1`; at position `n` and beyond it signals end-of-sequence
(`none`, the `StopIteration` signal, distinguished from every returned token)
and leaves the position where it is; and once there, any number of further
advances never leaves that terminal state. -/
theorem sentenceIterator_state_machine (ws : List String) (i : Nat) :
    (∀ h : i < ws.length,
        (SentenceIterator.mk ws i).next
          = (some (ws.get ⟨i, h⟩), SentenceIterator.mk ws (i + 1))) ∧
    (ws.length ≤ i →
        (SentenceIterator.mk ws i).next = (none, SentenceIterator.mk ws i)) ∧
    (ws.length ≤ i → ∀ n : Nat,
        SentenceIterator.advanceN n (SentenceIterator.mk ws i)
          = SentenceIterator.mk ws i) := by
  refine ⟨SentenceIterator.next_of_lt ws i, SentenceIterator.next_of_ge ws i, ?_⟩
  intro h n
  exact SentenceIterator.advanceN_exhausted n _ h

/-- Witness for C3 over the two-token list `["a", "b"]`: advance at position 0
yields the first token and moves to 1; advance at position 2 signals
end-of-sequence and stays. -/
theorem sentenceIterator_state_machine_witness :
    (SentenceIterator.mk ["a", "b"] 0).next
        = (some "a", SentenceIterator.mk ["a", "b"] 1) ∧
    (SentenceIterator.mk ["a", "b"] 2).next
        = (none, SentenceIterator.mk ["a", "b"] 2) :=
  ⟨(sentenceIterator_state_machine ["a", "b"] 0).1 (by decide),
   (sentenceIterator_state_machine ["a", "b"] 2).2.1 (by decide)⟩

/-- C4: A cursor that has already signalled end-of-sequence keeps signalling
it: after any number of further advance calls its state is unchanged and the
next advance still yields the `StopIteration` signal (`none`) and never a
token; `next` is a total function into `Option`, so no outcome other than a
token or this one signal exists. -/
theorem sentenceIterator_exhausted_idempotent (it : SentenceIterator) (n : Nat)
    (h : it.words.length ≤ it._index) :
    SentenceIterator.advanceN n it = it ∧
    (SentenceIterator.advanceN n it).next = (none, it) := by
  have ha := SentenceIterator.advanceN_exhausted n it h
  refine ⟨ha, ?_⟩
  rw [ha]
  cases it with
  | mk ws i => exact SentenceIterator.next_of_ge ws i h

/-- Witness for C4: an exhausted one-token cursor, advanced five more times,
is unchanged and still signals end-of-sequence. -/
theorem sentenceIterator_exhausted_idempotent_witness :
    SentenceIterator.advanceN 5 (SentenceIterator.mk ["a"] 1)
        = SentenceIterator.mk ["a"] 1 ∧
    (SentenceIterator.advanceN 5 (SentenceIterator.mk ["a"] 1)).next
        = (none, SentenceIterator.mk ["a"] 1) :=
  sentenceIterator_exhausted_idempotent (SentenceIterator.mk ["a"] 1) 5 (by decide)

/-- C5: For the input "Return a list of all non-overlapping matches in the
string.", one traversal yields exactly the eleven tokens Return, a, list, of,
all, non, overlapping, matches, in, the, string, in that order; every
character of every token is a word character, and neither the hyphen nor the
period is one, so no punctuation or hyphen occurs inside any token. -/
theorem sentence_concrete_traversal :
    (Sentence.init "Return a list of all non-overlapping matches in the string.").traverse
        = ["Return", "a", "list", "of", "all", "non", "overlapping", "matches", "in",
           "the", "string"] ∧
    (Sentence.init "Return a list of all non-overlapping matches in the string.").traverse.length
        = 11 ∧
    ((Sentence.init "Return a list of all non-overlapping matches in the string.").traverse.all
        (fun w => w.toList.all isWordChar)) = true ∧
    isWordChar '-' = false ∧ isWordChar '.' = false := by
  have h : (Sentence.init "Return a list of all non-overlapping matches in the string.").traverse
      = ["Return", "a", "list", "of", "all", "non", "overlapping", "matches", "in",
         "the", "string"] := by
    rw [Sentence.traverse_eq_words]
    show (findallW _).map List.asString = _
    rw [findallW_eq_specRuns]
    decide
  exact ⟨h, by rw [h]; rfl, by rw [h]; decide, by decide, by decide⟩

/-- C6: Constructing a word sequence from the empty string, or from any string
containing no word character, succeeds with an empty token list, and the first
advance on a fresh cursor over it immediately signals end-of-sequence with
zero tokens produced; the out-of-bounds lookup is turned into the normal
`none` end signal by `next` itself, never surfacing as a failure. -/
theorem sentence_no_word_chars_empty (S : String)
    (h : S.toList.all (fun c => !isWordChar c) = true) :
    (Sentence.init S).words = [] ∧
    (Sentence.init S).iter.next = (none, (Sentence.init S).iter) ∧
    (Sentence.init S).traverse = [] := by
  have hw : (Sentence.init S).words = [] := by
    show (findallW S.toList).map List.asString = []
    rw [findallW_nil_of_no_word S.toList ?_]
    · rfl
    · intro c hc
      have := List.all_eq_true.mp h c hc
      simpa using this
  refine ⟨hw, ?_, ?_⟩
  · show (SentenceIterator.mk (Sentence.init S).words 0).next
        = (none, SentenceIterator.mk (Sentence.init S).words 0)
    rw [hw]
    exact SentenceIterator.next_of_ge [] 0 (Nat.le_refl 0)
  · rw [Sentence.traverse_eq_words, hw]

/-- Witness for C6 at the empty input string. -/
theorem sentence_no_word_chars_empty_witness :
    (Sentence.init "").words = [] ∧
    (Sentence.init "").iter.next = (none, (Sentence.init "").iter) ∧
    (Sentence.init "").traverse = [] :=
  sentence_no_word_chars_empty "" (by decide)

/-- C7: The hand-built cursor implementation and the two generator-based
realizations are observationally equivalent on every input string: the three
full traversals produce the identical token sequence; at every step count `k`
the hand-built cursor and the generators produce the same k-th outcome (a
token, or the end-of-sequence signal once the tokens run out); and each
realization hands out a fresh cursor on every traversal request (position
zero for the hand-built cursor, the whole match list still pending for the
generators). -/
theorem sentence_versions_equivalent (S : String) :
    (Sentence.init S).traverse = (SentenceGen.init S).traverse ∧
    (Sentence.init S).traverse = (SentenceGenexp.init S).traverse ∧
    (∀ k : Nat,
        (SentenceIterator.advanceN k (Sentence.init S).iter).next.1
          = (GenCursor.advanceN k (SentenceGen.init S).iter).next.1) ∧
    (∀ k : Nat,
        (GenCursor.advanceN k (SentenceGen.init S).iter).next.1
          = (GenCursor.advanceN k (SentenceGenexp.init S).iter).next.1) ∧
    ((Sentence.init S).iter)._index = 0 ∧
    (SentenceGen.init S).iter = GenCursor.mk ((findallW S.toList).map List.asString) ∧
    (SentenceGenexp.init S).iter = GenCursor.mk ((findallW S.toList).map List.asString) := by
  refine ⟨?_, ?_, ?_, ?_, rfl, rfl, rfl⟩
  · rw [Sentence.traverse_eq_words, SentenceGen.traverse_gen_eq_words]
    rfl
  · rw [Sentence.traverse_eq_words, SentenceGenexp.traverse_genexp_eq]
    rfl
  · intro k
    exact (SentenceIterator.output_at_index ((findallW S.toList).map List.asString) k).trans
      (GenCursor.gen_output_at ((findallW S.toList).map List.asString) k).symm
  · intro k
    rfl

/-- C8: Traversals have no side effect on the word sequence: a traversal
request hands out a cursor holding exactly the sequence's token list, and no
number of advance calls (nor one more) changes that list — the token list of
the sequence as seen through any of its cursors is identical before and
after, and the `Sentence` value itself, holding its source string and token
list, is never modified by any operation of the embedding. -/
theorem sentence_traversal_no_side_effects (s : Sentence) (n : Nat) :
    (s.iter).words = s.words ∧
    (SentenceIterator.advanceN n s.iter).words = s.words ∧
    ((SentenceIterator.advanceN n s.iter).next.2).words = s.words := by
  refine ⟨rfl, SentenceIterator.advanceN_preserves_words n s.iter, ?_⟩
  rw [SentenceIterator.next_preserves_words]
  exact SentenceIterator.advanceN_preserves_words n s.iter

/-- C9: The class-construction hook walks the pending attribute mapping in
declaration order and, for exactly the entries whose value is a `Field`, sets
that `Field`'s `__name__` to the attribute's name and appends the name, so
`_field_names` lists the `Field`-valued attribute names in declaration order;
and a descriptor tagged with name `nm` thereafter redirects reads and writes
of its attribute to the instance backing store under key `nm`. -/
theorem desNameMeta_field_names (dic : List (String × ClassMeta.AttrVal)) :
    (ClassMeta.DesNameMeta.classInit dic).2 = ClassMeta.fieldNamesSpec dic ∧
    (∀ nm f, (nm, ClassMeta.AttrVal.fieldVal f) ∈ (ClassMeta.DesNameMeta.classInit dic).1 →
        f.__name__ = some nm) ∧
    (∀ nm store, ClassMeta.Field.get (ClassMeta.Field.mk (some nm)) store
        = some (ClassMeta.dictGet store nm)) ∧
    (∀ nm store v,
        ClassMeta.Field.set (ClassMeta.Field.mk (some nm)) store v
            = some (ClassMeta.dictSet store nm v) ∧
        ClassMeta.Field.get (ClassMeta.Field.mk (some nm)) (ClassMeta.dictSet store nm v)
            = some (some v)) := by
  refine ⟨ClassMeta.classInit_snd dic,
    fun nm f hm => ClassMeta.classInit_fst_field_named dic nm f hm,
    fun nm store => rfl,
    fun nm store v => ⟨rfl, ?_⟩⟩
  show some (ClassMeta.dictGet (ClassMeta.dictSet store nm v) nm) = some (some v)
  rw [ClassMeta.dictGet_dictSet_self]

/-- Witness for C9 at a concrete class body of two `Field` attributes and one
plain attribute, in declaration order. -/
theorem desNameMeta_field_names_witness :
    (ClassMeta.DesNameMeta.classInit
        [("name", ClassMeta.AttrVal.fieldVal (ClassMeta.Field.mk none)),
         ("title", ClassMeta.AttrVal.fieldVal (ClassMeta.Field.mk none)),
         ("other", ClassMeta.AttrVal.otherVal 0)]).2 = ["name", "title"] :=
  (desNameMeta_field_names
      [("name", ClassMeta.AttrVal.fieldVal (ClassMeta.Field.mk none)),
       ("title", ClassMeta.AttrVal.fieldVal (ClassMeta.Field.mk none)),
       ("other", ClassMeta.AttrVal.otherVal 0)]).1.trans (by decide)

/-- C10: Requesting a traversal from a cursor itself returns that very cursor,
not a fresh independent one: `iter` on a `SentenceIterator` is the identity,
its position stays whatever it already was (not zero), and advancing the
result of `iter` on a cursor is advancing the original cursor; only `iter` on
the `Sentence` hands out a fresh zero-positioned cursor. -/
theorem sentenceIterator_iter_self (it : SentenceIterator) (n : Nat) :
    it.iter = it ∧
    (it.iter)._index = it._index ∧
    SentenceIterator.advanceN n it.iter = SentenceIterator.advanceN n it :=
  ⟨rfl, rfl, rfl⟩
